import Mathlib

/-!
Verification of the crypto basis-trading pipeline (`resample.py`, `data.py`).

The development shallowly embeds the per-day basis pipeline: parsing raw
trade timestamps, resampling an irregular trade tape to a one-second
last-observation series with forward fill, inner-joining the futures and
spot series to a basis table, the multi-day driver with its file-count
precondition, and the artifact loader.  Timestamps are modelled as natural
numbers of microseconds on an abstract linear UTC timeline; prices are
modelled as rationals.
-/

namespace Basis

/-- Microseconds per second; the resample cadence of `resample('1s')`. -/
def USEC : Nat := 1000000

/-- A normalized trade: UTC instant (microseconds) and price.  This is the
(timestamp, price) representation the Resampler consumes after parsing. -/
structure Trade where
  ts : Nat
  price : ℚ
deriving DecidableEq

/-- The one-second bucket containing a trade: floor of its timestamp in
seconds, as computed by `resample('1s')` bucketing. -/
def Trade.sec (t : Trade) : Nat := t.ts / USEC

/-- `resample('1s').last()` for one bucket: the price of the last
(positionally latest) trade whose timestamp falls in second `s`, if any. -/
def bucketLast (trades : List Trade) (s : Nat) : Option ℚ :=
  ((trades.filter (fun t => t.sec = s)).getLast?).map Trade.price

/-- `.ffill()` over the one-second grid: walk the grid keeping the last
seen value as `carry`; an empty bucket takes the carried value (which is
`none` before the first populated bucket, matching a leading NaN). -/
def ffillGrid (trades : List Trade) : Option ℚ → List Nat → List (Nat × Option ℚ)
  | _, [] => []
  | carry, s :: rest =>
    match bucketLast trades s with
    | some p => (s, some p) :: ffillGrid trades (some p) rest
    | none => (s, carry) :: ffillGrid trades carry rest

/-- The grid's first second: floor of the minimum timestamp (0 on empty
input, unused there). -/
def minSec (trades : List Trade) : Nat :=
  match trades.map Trade.sec with
  | [] => 0
  | b :: bs => bs.foldl Nat.min b

/-- The grid's last second: floor of the maximum timestamp (0 on empty
input, unused there). -/
def maxSec (trades : List Trade) : Nat :=
  match trades.map Trade.sec with
  | [] => 0
  | b :: bs => bs.foldl Nat.max b

/-- `series.resample('1s').last().ffill()`: one entry per integer second
from the floor of the earliest timestamp to the floor of the latest, each
carrying the last price observed in or before its bucket (`none` models a
NaN entry before any populated bucket). -/
def resample (trades : List Trade) : List (Nat × Option ℚ) :=
  match trades with
  | [] => []
  | _ :: _ =>
    ffillGrid trades none (List.range' (minSec trades) (maxSec trades + 1 - minSec trades))

/-- The price of the latest input trade at or before second `s` (i.e. in a
bucket `≤ s`); this is the value the specification assigns to grid
second `s`. -/
def lastPriceAtOrBefore (trades : List Trade) (s : Nat) : Option ℚ :=
  ((trades.filter (fun t => t.sec ≤ s)).getLast?).map Trade.price

/-- The price of the latest input trade strictly before second `s`; the
forward-fill carry when the walk reaches second `s`. -/
def lastPriceBefore (trades : List Trade) (s : Nat) : Option ℚ :=
  ((trades.filter (fun t => t.sec < s)).getLast?).map Trade.price

/-- One row of the per-day basis table built by
`pd.concat([futures, spot], axis=1).dropna()` followed by
`daily_df['basis'] = daily_df['futures_price'] - daily_df['spot_price']`. -/
structure BasisRow where
  ts : Nat
  futures_price : ℚ
  spot_price : ℚ
  basis : ℚ
deriving DecidableEq

/-- Index lookup in a resampled series: the value stored at key `k`
(`none` both when the key is absent and when the stored value is NaN),
mirroring how `concat(axis=1)` fills absent index positions with NaN. -/
def seriesLookup (l : List (Nat × Option ℚ)) (k : Nat) : Option ℚ :=
  match l.find? (fun p => p.1 = k) with
  | some p => p.2
  | none => none

/-- The sorted union of the two series' index sets, the row index of
`pd.concat([futures, spot], axis=1)` (an outer join). -/
def unionKeys (fut spot : List (Nat × Option ℚ)) : List Nat :=
  ((fut.map Prod.fst ++ spot.map Prod.fst).dedup).mergeSort (fun x y => decide (x ≤ y))

/-- `pd.concat([futures, spot], axis=1).dropna()` with the basis column:
keep exactly the index keys where both sides hold a (non-NaN) value and
set `basis = futures_price - spot_price`. -/
def alignBasis (fut spot : List (Nat × Option ℚ)) : List BasisRow :=
  (unionKeys fut spot).filterMap (fun k =>
    match seriesLookup fut k, seriesLookup spot k with
    | some f, some s => some ⟨k, f, s, f - s⟩
    | _, _ => none)

/-! ### Timestamp parsing (the Normalizer)

`resample.py` parses BitMEX timestamps with
`pd.to_datetime(col.str.replace('D', ' '), format='%Y-%m-%d %H:%M:%S.%f', utc=True)`
and Binance timestamps (persisted by `data.py` as ISO-like strings) with
`pd.to_datetime(col, utc=True)`.  Both are embedded as character-level
parsers returning `none` exactly when pandas would raise a parse error. -/

/-- `digitsToNat` reads a digit run as a decimal number. -/
def digitsToNat (cs : List Char) : Nat :=
  cs.foldl (fun a c => a * 10 + (c.toNat - 48)) 0

/-- Read exactly `n` decimal digits, returning their value and the rest. -/
def parseFixedDigits (cs : List Char) (n : Nat) : Option (Nat × List Char) :=
  let pre := cs.take n
  if pre.length = n ∧ pre.all Char.isDigit then some (digitsToNat pre, cs.drop n)
  else none

/-- Consume one expected literal character. -/
def expectChar (c : Char) : List Char → Option (List Char)
  | x :: rest => if x = c then some rest else none
  | [] => none

/-- `col.str.replace('D', ' ')`: every literal `'D'` becomes a space. -/
def replaceD (s : String) : String :=
  String.mk (s.data.map (fun c => if c = 'D' then ' ' else c))

/-- Convert broken-down UTC fields to microseconds.  No claim depends on
the absolute epoch value of an instant, so the calendar is abstracted by a
fixed injective encoding that is strictly monotone in
(year, month, day, hour, minute, second, microsecond); sub-day arithmetic
(all per-day claims) is exact. -/
def toMicros (y mo d h mi s f : Nat) : Nat :=
  (((((y * 12 + mo) * 31 + d) * 24 + h) * 60 + mi) * 60 + s) * USEC + f

/-- Parse the fields common to both venues' timestamps:
`YYYY-MM-DD HH:MM:SS` followed by `rest`, with the field range checks
`strptime` performs. -/
def parseDateTimeFields (cs : List Char) : Option (Nat × List Char) := do
  let (y, cs) ← parseFixedDigits cs 4
  let cs ← expectChar '-' cs
  let (mo, cs) ← parseFixedDigits cs 2
  let cs ← expectChar '-' cs
  let (d, cs) ← parseFixedDigits cs 2
  let cs ← expectChar ' ' cs
  let (h, cs) ← parseFixedDigits cs 2
  let cs ← expectChar ':' cs
  let (mi, cs) ← parseFixedDigits cs 2
  let cs ← expectChar ':' cs
  let (s, cs) ← parseFixedDigits cs 2
  if 1 ≤ mo ∧ mo ≤ 12 ∧ 1 ≤ d ∧ d ≤ 31 ∧ h ≤ 23 ∧ mi ≤ 59 ∧ s ≤ 59 then
    some (toMicros y mo d h mi s 0, cs)
  else none

/-- A fractional-second suffix `.ffffff` (1 to 6 digits, `%f`), scaled to
microseconds; the input must end after it. -/
def parseFracAndEnd (cs : List Char) : Option Nat := do
  let cs ← expectChar '.' cs
  let frac := cs.takeWhile Char.isDigit
  let rest := cs.dropWhile Char.isDigit
  if rest.isEmpty ∧ 1 ≤ frac.length ∧ frac.length ≤ 6 then
    some (digitsToNat frac * 10 ^ (6 - frac.length))
  else none

/-- BitMEX: replace the literal `'D'` delimiter with a space, then parse
with the fixed format `%Y-%m-%d %H:%M:%S.%f`; `none` is a parse error. -/
def parseBitmexTimestamp (s : String) : Option Nat := do
  let (base, cs) ← parseDateTimeFields (replaceD s).data
  let f ← parseFracAndEnd cs
  some (base + f)

/-- Binance: the persisted ISO-like string `YYYY-MM-DD HH:MM:SS[.ffffff]`
accepted by the default `pd.to_datetime`; the fractional part is
optional.  `none` is a parse error. -/
def parseIsoTimestamp (s : String) : Option Nat := do
  let (base, cs) ← parseDateTimeFields s.data
  match cs with
  | [] => some base
  | _ => do
    let f ← parseFracAndEnd cs
    some (base + f)

/-! ### Raw rows, daily files and the multi-day driver -/

/-- A row of a filtered BitMEX daily CSV as `resample.py` reads it:
the `timestamp` string (with the `'D'` delimiter) and the `price` column. -/
structure BitmexRow where
  timestamp : String
  price : ℚ
deriving DecidableEq

/-- A row of a Binance daily CSV as `resample.py` reads it: the persisted
ISO-like `timestamp` string and the aggTrade price field `p` (coerced to
float by `astype(float)`). -/
structure BinanceRow where
  timestamp : String
  p : ℚ
deriving DecidableEq

/-- One raw daily file: the `YYYYMMDD` date string carried by its
filename (`bitmex_XBTUSD_<date>.csv` / `binance_<date>.csv`) and its
rows.  The driver receives these lists already `sorted()` as the code's
`glob` results are. -/
structure DailyFile (ρ : Type) where
  date : String
  rows : List ρ
deriving DecidableEq

/-- Pipeline failures: the `ValueError` raised on a file-count mismatch,
and a pandas parse error on a malformed timestamp string. -/
inductive PipelineError where
  | countMismatch : PipelineError
  | parseError : String → PipelineError
deriving DecidableEq

/-- Parse every BitMEX row's timestamp (the vectorized `pd.to_datetime`
over the column): the first malformed string aborts with a parse error. -/
def parseBitmexTrades : List BitmexRow → Except PipelineError (List Trade)
  | [] => .ok []
  | r :: rest =>
    match parseBitmexTimestamp r.timestamp with
    | none => .error (.parseError r.timestamp)
    | some ts => (parseBitmexTrades rest).map (fun l => ⟨ts, r.price⟩ :: l)

/-- Parse every Binance row's timestamp; the first malformed string
aborts with a parse error. -/
def parseBinanceTrades : List BinanceRow → Except PipelineError (List Trade)
  | [] => .ok []
  | r :: rest =>
    match parseIsoTimestamp r.timestamp with
    | none => .error (.parseError r.timestamp)
    | some ts => (parseBinanceTrades rest).map (fun l => ⟨ts, r.p⟩ :: l)

/-- The per-day body of the driver loop: parse and resample each side,
then align; the artifact is keyed by the date string extracted from the
BitMEX filename. -/
def processDay (bmx : DailyFile BitmexRow) (bnc : DailyFile BinanceRow) :
    Except PipelineError (String × List BasisRow) := do
  let futTrades ← parseBitmexTrades bmx.rows
  let spotTrades ← parseBinanceTrades bnc.rows
  .ok (bmx.date, alignBasis (resample futTrades) (resample spotTrades))

/-- `process_and_save_daily_basis`: raise `ValueError` when the sorted
BitMEX and Binance file lists differ in length, otherwise process the
`zip` of the two lists day by day, any day's error aborting the run. -/
def process_and_save_daily_basis (bitmexFiles : List (DailyFile BitmexRow))
    (binanceFiles : List (DailyFile BinanceRow)) :
    Except PipelineError (List (String × List BasisRow)) :=
  if bitmexFiles.length ≠ binanceFiles.length then .error .countMismatch
  else (bitmexFiles.zip binanceFiles).mapM (fun p => processDay p.1 p.2)

/-- `load_full_basis`: read the per-day artifacts in sorted filename
order (the filenames `basis_<date>.csv` share a prefix, so this is sorted
date order) and concatenate; with no artifacts, return an empty table. -/
def load_full_basis (store : List (String × List BasisRow)) : List BasisRow :=
  let dfs := (store.mergeSort (fun a b => decide (a.1 ≤ b.1))).map Prod.snd
  if dfs.isEmpty then [] else dfs.flatten

/-- A raw (unfiltered) BitMEX dump row as `data.py` reads it, with its
`symbol` column. -/
structure RawBitmexTrade where
  timestamp : String
  symbol : String
  price : ℚ
deriving DecidableEq

/-- The symbol-filter step of `download_bitmex_xbtusd`:
`df = df[df["symbol"] == "XBTUSD"]`. -/
def filterXbtusd (df : List RawBitmexTrade) : List RawBitmexTrade :=
  df.filter (fun r => r.symbol == "XBTUSD")

/-- Floor of the minimum input timestamp, in seconds: the first grid
second named by the specification. -/
def floorMinTs (trades : List Trade) : Nat :=
  (match trades.map Trade.ts with
   | [] => 0
   | t :: rest => rest.foldl Nat.min t) / USEC

/-- Floor of the maximum input timestamp, in seconds: the last grid
second named by the specification. -/
def floorMaxTs (trades : List Trade) : Nat :=
  (match trades.map Trade.ts with
   | [] => 0
   | t :: rest => rest.foldl Nat.max t) / USEC

/-- An input tape sorted ascending by timestamp. -/
abbrev SortedByTs (trades : List Trade) : Prop :=
  trades.Pairwise (fun a b => a.ts ≤ b.ts)

/-! ### Resampler lemmas -/

theorem foldl_min_of_le (bs : List Nat) : ∀ b : Nat, (∀ x ∈ bs, b ≤ x) →
    bs.foldl Nat.min b = b := by
  induction bs with
  | nil => intro b _; rfl
  | cons c cs ih =>
    intro b h
    have hbc : b ≤ c := h c (List.mem_cons_self c cs)
    simp only [List.foldl_cons, Nat.min_def, if_pos hbc]
    exact ih b (fun x hx => h x (List.mem_cons_of_mem c hx))

theorem foldl_max_sorted (bs : List Nat) : ∀ b : Nat,
    List.Pairwise (· ≤ ·) (b :: bs) →
    some (bs.foldl Nat.max b) = (b :: bs).getLast? := by
  induction bs with
  | nil => intro b _; rfl
  | cons c cs ih =>
    intro b h
    have hbc : b ≤ c := (List.pairwise_cons.mp h).1 c (List.mem_cons_self c cs)
    have h' : List.Pairwise (· ≤ ·) (c :: cs) := (List.pairwise_cons.mp h).2
    have : Nat.max b c = c := Nat.max_eq_right hbc
    simp only [List.foldl_cons, this]
    rw [ih c h']
    simp [List.getLast?_cons]

theorem sec_mono {a b : Trade} (h : a.ts ≤ b.ts) : a.sec ≤ b.sec :=
  Nat.div_le_div_right h

/-- For a sorted tape, the latest trade in a bucket `≤ s` is the latest
trade in bucket `s` itself, whenever bucket `s` is populated. -/
theorem getLast?_filter_le_eq_filter_sec {s : Nat} :
    ∀ (trades : List Trade), SortedByTs trades →
    (∃ t ∈ trades, t.sec = s) →
    (trades.filter (fun t => t.sec ≤ s)).getLast? =
      (trades.filter (fun t => t.sec = s)).getLast? := by
  intro trades
  induction trades with
  | nil => intro _ h; simp at h
  | cons r rest ih =>
    intro hsort hex
    have hpc := List.pairwise_cons.mp hsort
    by_cases hrest : ∃ t ∈ rest, t.sec = s
    · -- the witness is in the tail; both heads are redundant
      obtain ⟨t, ht, hts⟩ := hrest
      have htail := ih hpc.2 ⟨t, ht, hts⟩
      have hmem₁ : t ∈ rest.filter (fun t => t.sec ≤ s) :=
        List.mem_filter.mpr ⟨ht, by simp [hts]⟩
      have hne₁ : rest.filter (fun t => t.sec ≤ s) ≠ [] :=
        List.ne_nil_of_mem hmem₁
      have hmem₂ : t ∈ rest.filter (fun t => t.sec = s) :=
        List.mem_filter.mpr ⟨ht, by simp [hts]⟩
      have hne₂ : rest.filter (fun t => t.sec = s) ≠ [] :=
        List.ne_nil_of_mem hmem₂
      obtain ⟨x₁, hx₁⟩ := Option.isSome_iff_exists.mp (List.getLast?_isSome.mpr hne₁)
      obtain ⟨x₂, hx₂⟩ := Option.isSome_iff_exists.mp (List.getLast?_isSome.mpr hne₂)
      by_cases hr : r.sec ≤ s
      · by_cases hrs : r.sec = s
        · simp only [List.filter_cons, decide_eq_true_eq, if_pos hr, if_pos hrs,
            List.getLast?_cons, hx₁, hx₂, Option.getD_some] at htail ⊢
          exact htail
        · simp only [List.filter_cons, decide_eq_true_eq, if_pos hr, if_neg hrs,
            List.getLast?_cons, hx₁, Option.getD_some]
          rw [← htail, hx₁]
      · have hrs : ¬ r.sec = s := fun h => hr (le_of_eq h)
        simp only [List.filter_cons, decide_eq_true_eq, if_neg hr, if_neg hrs]
        exact htail
    · -- the head is the only trade in bucket s; the tail is beyond s
      obtain ⟨t, ht, hts⟩ := hex
      have htr : t = r := by
        rcases List.mem_cons.mp ht with h | h
        · exact h
        · exact absurd ⟨t, h, hts⟩ hrest
      subst htr
      have hrs : t.sec = s := hts
      have htail₁ : rest.filter (fun u => u.sec ≤ s) = [] := by
        rw [List.filter_eq_nil_iff]
        intro u hu
        have h1 : t.ts ≤ u.ts := hpc.1 u hu
        have h2 : s ≤ u.sec := hrs ▸ sec_mono h1
        have h3 : ¬ u.sec = s := fun h => hrest ⟨u, hu, h⟩
        have h4 : s < u.sec := lt_of_le_of_ne h2 (fun h => h3 h.symm)
        simp [Nat.not_le.mpr h4]
      have htail₂ : rest.filter (fun u => u.sec = s) = [] := by
        rw [List.filter_eq_nil_iff]
        intro u hu
        have h3 : ¬ u.sec = s := fun h => hrest ⟨u, hu, h⟩
        simp [h3]
      simp [List.filter_cons, hrs, htail₁, htail₂]

/-- When bucket `s` is empty, "at or before `s`" degenerates to
"strictly before `s`". -/
theorem lastPriceAtOrBefore_of_empty_bucket {trades : List Trade} {s : Nat}
    (h : ∀ t ∈ trades, ¬ t.sec = s) :
    lastPriceAtOrBefore trades s = lastPriceBefore trades s := by
  unfold lastPriceAtOrBefore lastPriceBefore
  congr 1
  apply congrArg
  apply List.filter_congr
  intro t ht
  have := h t ht
  rw [decide_eq_decide]
  constructor <;> intro hle
  · exact lt_of_le_of_ne hle this
  · exact le_of_lt hle

/-- The carry entering second `s + 1` is the value the specification
assigns to second `s`. -/
theorem lastPriceBefore_succ (trades : List Trade) (s : Nat) :
    lastPriceBefore trades (s + 1) = lastPriceAtOrBefore trades s := by
  unfold lastPriceAtOrBefore lastPriceBefore
  congr 1
  apply congrArg
  apply List.filter_congr
  intro t _
  simp [Nat.lt_succ_iff]

/-- When bucket `s` is populated, its last trade is the latest trade at
or before `s`. -/
theorem bucketLast_eq_lastPriceAtOrBefore {trades : List Trade} {s : Nat}
    (hsort : SortedByTs trades) (hex : ∃ t ∈ trades, t.sec = s) :
    bucketLast trades s = lastPriceAtOrBefore trades s := by
  unfold bucketLast lastPriceAtOrBefore
  rw [getLast?_filter_le_eq_filter_sec trades hsort hex]

/-- An empty `bucketLast` means no trade lands in bucket `s`. -/
theorem bucketLast_eq_none_iff {trades : List Trade} {s : Nat} :
    bucketLast trades s = none ↔ ∀ t ∈ trades, ¬ t.sec = s := by
  unfold bucketLast
  rw [Option.map_eq_none', List.getLast?_eq_none_iff, List.eq_nil_iff_forall_not_mem]
  constructor
  · intro h t ht hts
    exact h t (List.mem_filter.mpr ⟨ht, by simp [hts]⟩)
  · intro h t ht
    have := List.mem_filter.mp ht
    exact h t this.1 (by simpa using this.2)

/-- The forward-fill walk, entered with the correct carry, produces the
specification's value at every grid second. -/
theorem ffillGrid_eq_spec (trades : List Trade) (hsort : SortedByTs trades) :
    ∀ (n lo : Nat), ffillGrid trades (lastPriceBefore trades lo) (List.range' lo n)
      = (List.range' lo n).map (fun s => (s, lastPriceAtOrBefore trades s)) := by
  intro n
  induction n with
  | zero => intro lo; rfl
  | succ n ih =>
    intro lo
    rw [List.range'_succ, List.map_cons]
    cases hb : bucketLast trades lo with
    | some p =>
      have hex : ∃ t ∈ trades, t.sec = lo := by
        by_contra hc
        push_neg at hc
        rw [bucketLast_eq_none_iff.mpr (by intro t ht; exact hc t ht)] at hb
        exact Option.noConfusion hb
      have h1 : lastPriceAtOrBefore trades lo = some p := by
        rw [← bucketLast_eq_lastPriceAtOrBefore hsort hex]; exact hb
      have h2 : lastPriceBefore trades (lo + 1) = some p := by
        rw [lastPriceBefore_succ]; exact h1
      simp only [ffillGrid, hb]
      rw [h1, ← h2, ih (lo + 1)]
    | none =>
      have hempty : ∀ t ∈ trades, ¬ t.sec = lo := bucketLast_eq_none_iff.mp hb
      have h1 : lastPriceAtOrBefore trades lo = lastPriceBefore trades lo :=
        lastPriceAtOrBefore_of_empty_bucket hempty
      have h2 : lastPriceBefore trades (lo + 1) = lastPriceBefore trades lo := by
        rw [lastPriceBefore_succ, h1]
      simp only [ffillGrid, hb]
      rw [h1, ← h2, ih (lo + 1)]

theorem minSec_cons_sorted {r : Trade} {rest : List Trade}
    (hsort : SortedByTs (r :: rest)) : minSec (r :: rest) = r.sec := by
  unfold minSec
  simp only [List.map_cons]
  apply foldl_min_of_le
  intro x hx
  obtain ⟨t, ht, rfl⟩ := List.mem_map.mp hx
  exact sec_mono ((List.pairwise_cons.mp hsort).1 t ht)

theorem floorMinTs_cons_sorted {r : Trade} {rest : List Trade}
    (hsort : SortedByTs (r :: rest)) : floorMinTs (r :: rest) = r.sec := by
  unfold floorMinTs
  simp only [List.map_cons]
  rw [foldl_min_of_le]
  · rfl
  · intro x hx
    obtain ⟨t, ht, rfl⟩ := List.mem_map.mp hx
    exact (List.pairwise_cons.mp hsort).1 t ht

theorem maxSec_cons_sorted {r : Trade} {rest : List Trade}
    (hsort : SortedByTs (r :: rest)) :
    some (maxSec (r :: rest)) = ((r :: rest).map Trade.sec).getLast? := by
  unfold maxSec
  simp only [List.map_cons]
  apply foldl_max_sorted
  rw [← List.map_cons, List.pairwise_map]
  exact hsort.imp (fun h => sec_mono h)

theorem floorMaxTs_cons_sorted {r : Trade} {rest : List Trade}
    (hsort : SortedByTs (r :: rest)) :
    floorMaxTs (r :: rest) = maxSec (r :: rest) := by
  have hts : some ((rest.map Trade.ts).foldl Nat.max r.ts) =
      ((r :: rest).map Trade.ts).getLast? := by
    simp only [List.map_cons]
    apply foldl_max_sorted
    rw [← List.map_cons, List.pairwise_map]
    exact hsort
  have hsec := maxSec_cons_sorted hsort
  rw [List.getLast?_map] at hts hsec
  cases hl : (r :: rest).getLast? with
  | none => simp [hl] at hts
  | some t =>
    rw [hl] at hts hsec
    simp only [Option.map_some'] at hts hsec
    unfold floorMaxTs
    simp only [List.map_cons]
    rw [Option.some_inj.mp hts, Option.some_inj.mp hsec]
    rfl

theorem lastPriceBefore_minSec {r : Trade} {rest : List Trade}
    (hsort : SortedByTs (r :: rest)) :
    lastPriceBefore (r :: rest) r.sec = none := by
  unfold lastPriceBefore
  rw [List.filter_eq_nil_iff.mpr, List.getLast?_nil, Option.map_none']
  intro t ht
  simp only [decide_eq_true_eq, Nat.not_lt]
  rcases List.mem_cons.mp ht with h | h
  · exact le_of_eq (congrArg Trade.sec h.symm)
  · exact sec_mono ((List.pairwise_cons.mp hsort).1 t h)

/-- The value at any grid second is populated: the first trade is always
at or before it. -/
theorem lastPriceAtOrBefore_isSome {r : Trade} {rest : List Trade} {s : Nat}
    (h : r.sec ≤ s) : ∃ q : ℚ, lastPriceAtOrBefore (r :: rest) s = some q := by
  unfold lastPriceAtOrBefore
  have hmem : r ∈ (r :: rest).filter (fun t => t.sec ≤ s) :=
    List.mem_filter.mpr ⟨List.mem_cons_self r rest, by simp [h]⟩
  obtain ⟨x, hx⟩ := Option.isSome_iff_exists.mp
    (List.getLast?_isSome.mpr (List.ne_nil_of_mem hmem))
  exact ⟨x.price, by rw [hx]; rfl⟩

/-- The characterization of `resample` on sorted nonempty input: exactly
the grid seconds from floor(min ts) to floor(max ts), each valued at the
latest price at or before it. -/
theorem resample_sorted_eq (trades : List Trade) (hne : trades ≠ [])
    (hsort : SortedByTs trades) :
    resample trades =
      (List.range' (floorMinTs trades) (floorMaxTs trades + 1 - floorMinTs trades)).map
        (fun s => (s, lastPriceAtOrBefore trades s)) := by
  match trades, hne with
  | r :: rest, _ =>
    show ffillGrid (r :: rest) none
        (List.range' (minSec (r :: rest)) (maxSec (r :: rest) + 1 - minSec (r :: rest))) = _
    rw [floorMinTs_cons_sorted hsort, floorMaxTs_cons_sorted hsort,
      minSec_cons_sorted hsort, ← lastPriceBefore_minSec hsort]
    exact ffillGrid_eq_spec (r :: rest) hsort (maxSec (r :: rest) + 1 - r.sec) r.sec

/-! ### Basis Aligner lemmas -/

theorem seriesLookup_some_mem {l : List (Nat × Option ℚ)} {k : Nat} {q : ℚ}
    (h : seriesLookup l k = some q) : k ∈ l.map Prod.fst := by
  unfold seriesLookup at h
  cases hf : l.find? (fun p => p.1 = k) with
  | none => rw [hf] at h; exact absurd h (by simp)
  | some p =>
    rw [hf] at h
    have hp := List.find?_some hf
    have hm := List.mem_of_find?_eq_some hf
    simp only [decide_eq_true_eq] at hp
    exact List.mem_map.mpr ⟨p, hm, hp⟩

theorem seriesLookup_isSome_of_mem {l : List (Nat × Option ℚ)}
    (hall : ∀ p ∈ l, p.2.isSome) {k : Nat} (hk : k ∈ l.map Prod.fst) :
    ∃ q, seriesLookup l k = some q := by
  obtain ⟨p, hp, rfl⟩ := List.mem_map.mp hk
  have hfind : (l.find? (fun x => x.1 = p.1)).isSome := by
    rw [List.find?_isSome]
    exact ⟨p, hp, by simp⟩
  obtain ⟨x, hx⟩ := Option.isSome_iff_exists.mp hfind
  obtain ⟨q, hq⟩ := Option.isSome_iff_exists.mp (hall x (List.mem_of_find?_eq_some hx))
  refine ⟨q, ?_⟩
  unfold seriesLookup
  rw [hx]
  exact hq

theorem mem_unionKeys {fut spot : List (Nat × Option ℚ)} {k : Nat} :
    k ∈ unionKeys fut spot ↔ (k ∈ fut.map Prod.fst ∨ k ∈ spot.map Prod.fst) := by
  unfold unionKeys
  rw [List.mem_mergeSort, List.mem_dedup, List.mem_append]

/-- Rows of `alignBasis` are exactly the rows produced at keys where both
lookups succeed. -/
theorem mem_alignBasis {fut spot : List (Nat × Option ℚ)} {r : BasisRow} :
    r ∈ alignBasis fut spot ↔ ∃ k ∈ unionKeys fut spot, ∃ f s,
      seriesLookup fut k = some f ∧ seriesLookup spot k = some s ∧
      r = ⟨k, f, s, f - s⟩ := by
  unfold alignBasis
  rw [List.mem_filterMap]
  constructor
  · rintro ⟨k, hk, hfk⟩
    refine ⟨k, hk, ?_⟩
    cases hLf : seriesLookup fut k with
    | none => rw [hLf] at hfk; exact absurd hfk (by simp)
    | some f =>
      cases hLs : seriesLookup spot k with
      | none => rw [hLf, hLs] at hfk; exact absurd hfk (by simp)
      | some s =>
        rw [hLf, hLs] at hfk
        exact ⟨f, s, rfl, rfl, (Option.some_inj.mp hfk).symm⟩
  · rintro ⟨k, hk, f, s, hLf, hLs, rfl⟩
    exact ⟨k, hk, by rw [hLf, hLs]⟩

/-- C2: For every pair of resampled series (futures, spot), the Basis
Aligner's output timestamp set equals the intersection of the two input
timestamp sets, and every output row satisfies
basis = futures_price − spot_price; timestamps missing from either side
are dropped, never zero-filled or interpolated. -/
theorem C2_aligner_inner_join (fut spot : List (Nat × Option ℚ))
    (hf : ∀ p ∈ fut, p.2.isSome) (hs : ∀ p ∈ spot, p.2.isSome) :
    (∀ k : Nat, (∃ r ∈ alignBasis fut spot, r.ts = k) ↔
      (k ∈ fut.map Prod.fst ∧ k ∈ spot.map Prod.fst)) ∧
    ∀ r ∈ alignBasis fut spot, r.basis = r.futures_price - r.spot_price := by
  constructor
  · intro k
    constructor
    · rintro ⟨r, hr, hts⟩
      obtain ⟨k', _, f, s, hLf, hLs, rfl⟩ := mem_alignBasis.mp hr
      have : k' = k := hts
      subst this
      exact ⟨seriesLookup_some_mem hLf, seriesLookup_some_mem hLs⟩
    · rintro ⟨hkf, hks⟩
      obtain ⟨qf, hqf⟩ := seriesLookup_isSome_of_mem hf hkf
      obtain ⟨qs, hqs⟩ := seriesLookup_isSome_of_mem hs hks
      refine ⟨⟨k, qf, qs, qf - qs⟩, ?_, rfl⟩
      exact mem_alignBasis.mpr ⟨k, mem_unionKeys.mpr (Or.inl hkf), qf, qs, hqf, hqs, rfl⟩
  · intro r hr
    obtain ⟨k, _, f, s, _, _, rfl⟩ := mem_alignBasis.mp hr
    rfl

/-- Witness for C2 on the series futures = 100, 100, 102 over seconds
0..2 and spot = 99, 101 over seconds 0..1. -/
theorem C2_aligner_inner_join_witness :
    ((∀ p ∈ ([(0, some 100), (1, some 100), (2, some 102)] : List (Nat × Option ℚ)),
        p.2.isSome) ∧
      (∀ p ∈ ([(0, some 99), (1, some 101)] : List (Nat × Option ℚ)), p.2.isSome)) ∧
    ((∀ k : Nat, (∃ r ∈ alignBasis [(0, some 100), (1, some 100), (2, some 102)]
        [(0, some 99), (1, some 101)], r.ts = k) ↔
      (k ∈ ([(0, some 100), (1, some 100), (2, some 102)] : List (Nat × Option ℚ)).map Prod.fst ∧
        k ∈ ([(0, some 99), (1, some 101)] : List (Nat × Option ℚ)).map Prod.fst)) ∧
    ∀ r ∈ alignBasis [(0, some 100), (1, some 100), (2, some 102)]
        [(0, some 99), (1, some 101)],
      r.basis = r.futures_price - r.spot_price) :=
  ⟨⟨by decide, by decide⟩,
    C2_aligner_inner_join [(0, some 100), (1, some 100), (2, some 102)]
      [(0, some 99), (1, some 101)] (by decide) (by decide)⟩

/-- With no key present on both sides, the aligned table is empty. -/
theorem alignBasis_eq_nil_of_disjoint (fut spot : List (Nat × Option ℚ))
    (hdisj : ∀ k, k ∈ fut.map Prod.fst → k ∉ spot.map Prod.fst) :
    alignBasis fut spot = [] := by
  unfold alignBasis
  rw [List.filterMap_eq_nil_iff]
  intro k _
  cases hLf : seriesLookup fut k with
  | none => rfl
  | some f =>
    cases hLs : seriesLookup spot k with
    | none => rfl
    | some s =>
      exact absurd (seriesLookup_some_mem hLs) (hdisj k (seriesLookup_some_mem hLf))

/-! ### Re-resampling an already-resampled series -/

/-- Reinterpret a resampled series as a trade tape: each populated grid
entry becomes a trade stamped at its exact second boundary, which is the
DatetimeIndex the resampled pandas series carries. -/
def resampledToTrades (r : List (Nat × Option ℚ)) : List Trade :=
  r.filterMap (fun p => p.2.map (fun q => ⟨p.1 * USEC, q⟩))

theorem sec_grid (k : Nat) (q : ℚ) : (⟨k * USEC, q⟩ : Trade).sec = k :=
  Nat.mul_div_cancel k (by decide)

theorem getLast?_cons_of_ne_nil {α : Type} {a : α} {l : List α} (hne : l ≠ []) :
    (a :: l).getLast? = l.getLast? := by
  obtain ⟨x, hx⟩ := Option.isSome_iff_exists.mp (List.getLast?_isSome.mpr hne)
  rw [List.getLast?_cons, hx]
  rfl

theorem gridTrades_sorted (h : Nat → ℚ) (lo n : Nat) :
    SortedByTs ((List.range' lo n).map (fun k => (⟨k * USEC, h k⟩ : Trade))) := by
  refine List.pairwise_map.mpr ?_
  apply (List.pairwise_lt_range' lo n 1 (by decide)).imp
  intro a b hab
  exact Nat.mul_le_mul_right USEC (le_of_lt hab)

/-- On a tape whose trades sit exactly at the grid seconds `lo, …,
lo + n - 1`, the latest price at or before a covered second `s` is the
tape's own value at `s`. -/
theorem gridTrades_lastAtOrBefore (h : Nat → ℚ) :
    ∀ (n lo s : Nat), lo ≤ s → s < lo + n →
    lastPriceAtOrBefore ((List.range' lo n).map (fun k => (⟨k * USEC, h k⟩ : Trade))) s
      = some (h s) := by
  intro n
  induction n with
  | zero => intro lo s h1 h2; omega
  | succ m ih =>
    intro lo s h1 h2
    rw [List.range'_succ, List.map_cons]
    unfold lastPriceAtOrBefore
    rw [List.filter_cons, if_pos (by simp [sec_grid, h1])]
    rcases Nat.lt_or_ge lo s with hlt | hge
    · have htail := ih (lo + 1) s hlt (by omega)
      unfold lastPriceAtOrBefore at htail
      have hne : ((List.range' (lo + 1) m).map
          (fun k => (⟨k * USEC, h k⟩ : Trade))).filter (fun t => t.sec ≤ s) ≠ [] := by
        intro hnil
        rw [hnil] at htail
        simp at htail
      rw [getLast?_cons_of_ne_nil hne]
      exact htail
    · have hs : s = lo := le_antisymm (by omega) h1
      subst hs
      have htail : ((List.range' (s + 1) m).map
          (fun k => (⟨k * USEC, h k⟩ : Trade))).filter (fun t => t.sec ≤ s) = [] := by
        rw [List.filter_eq_nil_iff]
        intro t ht
        obtain ⟨k, hk, rfl⟩ := List.mem_map.mp ht
        obtain ⟨i, _, rfl⟩ := List.mem_range'.mp hk
        simp [sec_grid]
        omega
      rw [htail]
      simp [sec_grid]

theorem resample_grid (h : Nat → ℚ) (lo m : Nat) :
    resample ((List.range' lo (m + 1)).map (fun k => (⟨k * USEC, h k⟩ : Trade))) =
      (List.range' lo (m + 1)).map (fun k => (k, some (h k))) := by
  have hsort := gridTrades_sorted h lo (m + 1)
  have htape : (List.range' lo (m + 1)).map (fun k => (⟨k * USEC, h k⟩ : Trade)) =
      (⟨lo * USEC, h lo⟩ : Trade) ::
        (List.range' (lo + 1) m).map (fun k => (⟨k * USEC, h k⟩ : Trade)) := by
    rw [List.range'_succ, List.map_cons]
  rw [htape] at hsort ⊢
  have hne : (⟨lo * USEC, h lo⟩ : Trade) ::
      (List.range' (lo + 1) m).map (fun k => (⟨k * USEC, h k⟩ : Trade)) ≠ [] := by
    simp
  have heq := resample_sorted_eq _ hne hsort
  have hlo : floorMinTs ((⟨lo * USEC, h lo⟩ : Trade) ::
      (List.range' (lo + 1) m).map (fun k => (⟨k * USEC, h k⟩ : Trade))) = lo := by
    rw [floorMinTs_cons_sorted hsort, sec_grid]
  have hsecmap : ((⟨lo * USEC, h lo⟩ : Trade) ::
      (List.range' (lo + 1) m).map (fun k => (⟨k * USEC, h k⟩ : Trade))).map Trade.sec =
      List.range' lo (m + 1) := by
    rw [← htape, List.map_map, List.range'_succ]
    rw [show Trade.sec ∘ (fun k => (⟨k * USEC, h k⟩ : Trade)) = id from funext fun k => sec_grid k (h k)]
    simp
  have hhi : floorMaxTs ((⟨lo * USEC, h lo⟩ : Trade) ::
      (List.range' (lo + 1) m).map (fun k => (⟨k * USEC, h k⟩ : Trade))) = lo + m := by
    rw [floorMaxTs_cons_sorted hsort]
    have hmax := maxSec_cons_sorted hsort
    rw [hsecmap, List.range'_1_concat, List.getLast?_concat] at hmax
    exact Option.some_inj.mp hmax
  rw [heq, hlo, hhi]
  have : lo + m + 1 - lo = m + 1 := by omega
  rw [this, ← htape]
  apply List.map_congr_left
  intro s hs
  obtain ⟨i, hi, rfl⟩ := List.mem_range'.mp hs
  rw [gridTrades_lastAtOrBefore h (m + 1) lo (lo + 1 * i) (by omega) (by omega)]

/-- On a populated resampled series, reinterpreting as a trade tape is a
plain map onto second-boundary trades. -/
theorem resampledToTrades_map (f : Nat → Option ℚ) :
    ∀ (l : List Nat), (∀ s ∈ l, (f s).isSome) →
    resampledToTrades (l.map (fun s => (s, f s))) =
      l.map (fun s => (⟨s * USEC, (f s).getD 0⟩ : Trade)) := by
  intro l
  induction l with
  | nil => intro _; rfl
  | cons a l ih =>
    intro hall
    obtain ⟨q, hq⟩ := Option.isSome_iff_exists.mp (hall a (List.mem_cons_self a l))
    simp only [List.map_cons, resampledToTrades, List.filterMap_cons, hq,
      Option.map_some', Option.getD_some]
    rw [← resampledToTrades, ih (fun s hs => hall s (List.mem_cons_of_mem a hs))]

theorem floorMinTs_le_floorMaxTs {r : Trade} {rest : List Trade}
    (hsort : SortedByTs (r :: rest)) :
    floorMinTs (r :: rest) ≤ floorMaxTs (r :: rest) := by
  rw [floorMinTs_cons_sorted hsort, floorMaxTs_cons_sorted hsort]
  have hsec := maxSec_cons_sorted hsort
  rw [List.getLast?_map] at hsec
  cases hl : (r :: rest).getLast? with
  | none => rw [hl] at hsec; simp at hsec
  | some t =>
    rw [hl] at hsec
    simp only [Option.map_some', Option.some_inj] at hsec
    have ht : t ∈ r :: rest := by
      have hgl := List.getLast?_eq_getLast (r :: rest) (by simp)
      rw [hl] at hgl
      rw [Option.some_inj.mp hgl]
      exact List.getLast_mem (by simp)
    have hle : r.ts ≤ t.ts := by
      rcases List.mem_cons.mp ht with h | h
      · exact le_of_eq (congrArg Trade.ts h.symm)
      · exact (List.pairwise_cons.mp hsort).1 t h
    rw [hsec]
    exact sec_mono hle

/-- C7: Resampling is idempotent at the fixed one-second cadence:
re-resampling an already-resampled series yields that series unchanged. -/
theorem C7_resample_idempotent (trades : List Trade) (hne : trades ≠ [])
    (hsort : SortedByTs trades) :
    resample (resampledToTrades (resample trades)) = resample trades := by
  have heq := resample_sorted_eq trades hne hsort
  have hall : ∀ s ∈ List.range' (floorMinTs trades)
      (floorMaxTs trades + 1 - floorMinTs trades),
      (lastPriceAtOrBefore trades s).isSome := by
    intro s hs
    match trades, hne, hsort with
    | r :: rest, _, hsort =>
      have hlo := floorMinTs_cons_sorted hsort
      obtain ⟨i, _, rfl⟩ := List.mem_range'.mp hs
      obtain ⟨q, hq⟩ := @lastPriceAtOrBefore_isSome r rest
        (floorMinTs (r :: rest) + 1 * i) (by rw [hlo]; omega)
      rw [hq]
      rfl
  have h1 : resampledToTrades (resample trades) =
      (List.range' (floorMinTs trades) (floorMaxTs trades + 1 - floorMinTs trades)).map
        (fun s => (⟨s * USEC, (lastPriceAtOrBefore trades s).getD 0⟩ : Trade)) := by
    rw [heq]
    exact resampledToTrades_map _ _ hall
  obtain ⟨m, hm⟩ : ∃ m, floorMaxTs trades + 1 - floorMinTs trades = m + 1 := by
    match trades, hne, hsort with
    | r :: rest, _, hsort =>
      have := floorMinTs_le_floorMaxTs hsort
      exact ⟨floorMaxTs (r :: rest) - floorMinTs (r :: rest), by omega⟩
  rw [h1, hm, resample_grid, heq, hm]
  apply List.map_congr_left
  intro s hs
  obtain ⟨q, hq⟩ := Option.isSome_iff_exists.mp (hall s (by rw [hm]; exact hs))
  rw [hq]
  rfl

/-- Witness for C7 at the concrete tape (0.1 s, 100), (2.5 s, 102). -/
theorem C7_resample_idempotent_witness :
    (([⟨100000, (100 : ℚ)⟩, ⟨2500000, 102⟩] : List Trade) ≠ [] ∧
      SortedByTs [⟨100000, (100 : ℚ)⟩, ⟨2500000, 102⟩]) ∧
    resample (resampledToTrades (resample [⟨100000, (100 : ℚ)⟩, ⟨2500000, 102⟩])) =
      resample [⟨100000, (100 : ℚ)⟩, ⟨2500000, 102⟩] :=
  ⟨⟨by decide, by decide⟩,
    C7_resample_idempotent [⟨100000, (100 : ℚ)⟩, ⟨2500000, 102⟩] (by decide) (by decide)⟩

/-- C1: For every input sequence of (timestamp, price) pairs sorted
ascending by timestamp, the Resampler's output series has exactly one
entry per integer second in the closed interval
[floor(min timestamp), floor(max timestamp)], and every output value
equals the price of the latest input trade at or before that second
(last observation in a bucket wins; empty buckets are forward-filled
from the most recent populated bucket). -/
theorem C1_resampler_grid_and_values (trades : List Trade) (hne : trades ≠ [])
    (hsort : SortedByTs trades) :
    resample trades =
      (List.range' (floorMinTs trades) (floorMaxTs trades + 1 - floorMinTs trades)).map
        (fun s => (s, lastPriceAtOrBefore trades s)) ∧
    ∀ p ∈ resample trades, ∃ q : ℚ,
      p.2 = some q ∧ lastPriceAtOrBefore trades p.1 = some q := by
  have heq := resample_sorted_eq trades hne hsort
  refine ⟨heq, ?_⟩
  intro p hp
  rw [heq] at hp
  obtain ⟨s, hs, rfl⟩ := List.mem_map.mp hp
  match trades, hne, hsort with
  | r :: rest, _, hsort =>
    have hlo : floorMinTs (r :: rest) = r.sec := floorMinTs_cons_sorted hsort
    have hsge : r.sec ≤ s := by
      obtain ⟨i, _, rfl⟩ := List.mem_range'.mp hs
      omega
    obtain ⟨q, hq⟩ := @lastPriceAtOrBefore_isSome r rest s hsge
    exact ⟨q, hq, hq⟩

/-- Witness for C1 at the concrete tape (0.1 s, 100), (2.5 s, 102). -/
theorem C1_resampler_grid_and_values_witness :
    (([⟨100000, (100 : ℚ)⟩, ⟨2500000, 102⟩] : List Trade) ≠ [] ∧
      SortedByTs [⟨100000, (100 : ℚ)⟩, ⟨2500000, 102⟩]) ∧
    (resample [⟨100000, (100 : ℚ)⟩, ⟨2500000, 102⟩] =
      (List.range'
          (floorMinTs [⟨100000, (100 : ℚ)⟩, ⟨2500000, 102⟩])
          (floorMaxTs [⟨100000, (100 : ℚ)⟩, ⟨2500000, 102⟩] + 1 -
            floorMinTs [⟨100000, (100 : ℚ)⟩, ⟨2500000, 102⟩])).map
        (fun s => (s, lastPriceAtOrBefore [⟨100000, (100 : ℚ)⟩, ⟨2500000, 102⟩] s)) ∧
    ∀ p ∈ resample [⟨100000, (100 : ℚ)⟩, ⟨2500000, 102⟩], ∃ q : ℚ,
      p.2 = some q ∧
        lastPriceAtOrBefore [⟨100000, (100 : ℚ)⟩, ⟨2500000, 102⟩] p.1 = some q) :=
  ⟨⟨by decide, by decide⟩,
    C1_resampler_grid_and_values [⟨100000, (100 : ℚ)⟩, ⟨2500000, 102⟩]
      (by decide) (by decide)⟩

/-! ### Multi-day driver claims -/

/-- C3: If the number of available futures-venue daily files differs from
the number of spot-venue daily files, the Multi-Day Aggregator raises a
fatal configuration error before processing any day, and no BasisRecord
is produced; the mismatch is never silently truncated to the shorter
list. -/
theorem C3_count_mismatch_fatal (bitmexFiles : List (DailyFile BitmexRow))
    (binanceFiles : List (DailyFile BinanceRow))
    (h : bitmexFiles.length ≠ binanceFiles.length) :
    process_and_save_daily_basis bitmexFiles binanceFiles =
      .error .countMismatch := by
  unfold process_and_save_daily_basis
  rw [if_pos h]

/-- Witness for C3: one BitMEX file against no Binance file. -/
theorem C3_count_mismatch_fatal_witness :
    ([⟨"20250103", []⟩] : List (DailyFile BitmexRow)).length ≠
      ([] : List (DailyFile BinanceRow)).length ∧
    process_and_save_daily_basis [⟨"20250103", []⟩] [] = .error .countMismatch :=
  ⟨by decide, C3_count_mismatch_fatal [⟨"20250103", []⟩] [] (by decide)⟩

/-- C5: When a day's futures and spot resampled series share no common
timestamp, the result for that day is an empty BasisRecord set, not a
raised exception. -/
theorem C5_empty_intersection_not_exceptional (bmx : DailyFile BitmexRow)
    (bnc : DailyFile BinanceRow) (ft st : List Trade)
    (hfp : parseBitmexTrades bmx.rows = .ok ft)
    (hsp : parseBinanceTrades bnc.rows = .ok st)
    (hdisj : ∀ k, k ∈ (resample ft).map Prod.fst →
      k ∉ (resample st).map Prod.fst) :
    processDay bmx bnc = .ok (bmx.date, []) := by
  unfold processDay
  rw [hfp, hsp]
  show Except.ok (bmx.date, alignBasis (resample ft) (resample st)) = _
  rw [alignBasis_eq_nil_of_disjoint _ _ hdisj]

/-- Witness for C5: one futures trade in second 65088057600 against one
spot trade in second 65088064800. -/
theorem C5_empty_intersection_not_exceptional_witness :
    (parseBitmexTrades (DailyFile.rows ⟨"20250103", [⟨"2025-01-03D00:00:00.100000", 100⟩]⟩) =
        .ok [⟨65088057600100000, 100⟩] ∧
      parseBinanceTrades (DailyFile.rows ⟨"20250103", [⟨"2025-01-03 02:00:00.000000", 99⟩]⟩) =
        .ok [⟨65088064800000000, 99⟩] ∧
      (∀ k, k ∈ (resample [⟨65088057600100000, 100⟩]).map Prod.fst →
        k ∉ (resample [⟨65088064800000000, 99⟩]).map Prod.fst)) ∧
    processDay ⟨"20250103", [⟨"2025-01-03D00:00:00.100000", 100⟩]⟩
        ⟨"20250103", [⟨"2025-01-03 02:00:00.000000", 99⟩]⟩ =
      .ok (DailyFile.date (⟨"20250103", [⟨"2025-01-03D00:00:00.100000", 100⟩]⟩ : DailyFile BitmexRow), []) :=
  ⟨⟨rfl, rfl, by decide⟩,
    C5_empty_intersection_not_exceptional
      ⟨"20250103", [⟨"2025-01-03D00:00:00.100000", 100⟩]⟩
      ⟨"20250103", [⟨"2025-01-03 02:00:00.000000", 99⟩]⟩
      [⟨65088057600100000, 100⟩] [⟨65088064800000000, 99⟩]
      rfl rfl (by decide)⟩

theorem parseBitmexTrades_error_of_malformed :
    ∀ (rows : List BitmexRow),
    (∃ r ∈ rows, parseBitmexTimestamp r.timestamp = none) →
    ∃ s, parseBitmexTrades rows = .error (.parseError s) := by
  intro rows
  induction rows with
  | nil => rintro ⟨r, hr, _⟩; simp at hr
  | cons r rest ih =>
    rintro ⟨t, ht, hmal⟩
    cases hp : parseBitmexTimestamp r.timestamp with
    | none => exact ⟨r.timestamp, by unfold parseBitmexTrades; rw [hp]⟩
    | some ts =>
      have htr : t ∈ rest := by
        rcases List.mem_cons.mp ht with h | h
        · rw [h, hp] at hmal; exact absurd hmal (by simp)
        · exact h
      obtain ⟨s, hs⟩ := ih ⟨t, htr, hmal⟩
      refine ⟨s, ?_⟩
      unfold parseBitmexTrades
      rw [hp, hs]
      rfl

theorem parseBinanceTrades_error_of_malformed :
    ∀ (rows : List BinanceRow),
    (∃ r ∈ rows, parseIsoTimestamp r.timestamp = none) →
    ∃ s, parseBinanceTrades rows = .error (.parseError s) := by
  intro rows
  induction rows with
  | nil => rintro ⟨r, hr, _⟩; simp at hr
  | cons r rest ih =>
    rintro ⟨t, ht, hmal⟩
    cases hp : parseIsoTimestamp r.timestamp with
    | none => exact ⟨r.timestamp, by unfold parseBinanceTrades; rw [hp]⟩
    | some ts =>
      have htr : t ∈ rest := by
        rcases List.mem_cons.mp ht with h | h
        · rw [h, hp] at hmal; exact absurd hmal (by simp)
        · exact h
      obtain ⟨s, hs⟩ := ih ⟨t, htr, hmal⟩
      refine ⟨s, ?_⟩
      unfold parseBinanceTrades
      rw [hp, hs]
      rfl

/-- BitMEX parsing only ever fails with a parse error. -/
theorem parseBitmexTrades_error_shape :
    ∀ (rows : List BitmexRow) (e : PipelineError),
    parseBitmexTrades rows = .error e → ∃ s, e = .parseError s := by
  intro rows
  induction rows with
  | nil => intro e he; exact absurd he (by unfold parseBitmexTrades; simp)
  | cons r rest ih =>
    intro e he
    unfold parseBitmexTrades at he
    cases hp : parseBitmexTimestamp r.timestamp with
    | none =>
      rw [hp] at he
      exact ⟨r.timestamp, (Except.error.inj he).symm⟩
    | some ts =>
      rw [hp] at he
      cases hrest : parseBitmexTrades rest with
      | error e' =>
        rw [hrest] at he
        obtain ⟨s, hs⟩ := ih e' hrest
        exact ⟨s, by rw [← Except.error.inj he, hs]⟩
      | ok l => rw [hrest] at he; exact absurd he (by simp [Except.map])

/-- C6: For every raw record whose timestamp string is malformed, the
Normalizer fails with a ParseError, and that error aborts the enclosing
day's processing with no partial-day recovery. -/
theorem C6_malformed_timestamp_aborts_day (bmx : DailyFile BitmexRow)
    (bnc : DailyFile BinanceRow)
    (h : (∃ r ∈ bmx.rows, parseBitmexTimestamp r.timestamp = none) ∨
         (∃ r ∈ bnc.rows, parseIsoTimestamp r.timestamp = none)) :
    ∃ s, processDay bmx bnc = .error (.parseError s) := by
  rcases h with hb | hn
  · obtain ⟨s, hs⟩ := parseBitmexTrades_error_of_malformed bmx.rows hb
    refine ⟨s, ?_⟩
    unfold processDay
    rw [hs]
    rfl
  · cases hf : parseBitmexTrades bmx.rows with
    | error e =>
      obtain ⟨s, hs⟩ := parseBitmexTrades_error_shape bmx.rows e hf
      refine ⟨s, ?_⟩
      unfold processDay
      rw [hf, hs]
      rfl
    | ok ft =>
      obtain ⟨s, hs⟩ := parseBinanceTrades_error_of_malformed bnc.rows hn
      refine ⟨s, ?_⟩
      unfold processDay
      rw [hf, hs]
      rfl

/-- Witness for C6: a BitMEX row with the unparseable timestamp
"garbage". -/
theorem C6_malformed_timestamp_aborts_day_witness :
    ((∃ r ∈ (DailyFile.rows ⟨"20250103", [⟨"garbage", 100⟩]⟩),
        parseBitmexTimestamp (BitmexRow.timestamp r) = none) ∨
      (∃ r ∈ (DailyFile.rows (⟨"20250103", []⟩ : DailyFile BinanceRow)),
        parseIsoTimestamp (BinanceRow.timestamp r) = none)) ∧
    ∃ s, processDay ⟨"20250103", [⟨"garbage", 100⟩]⟩ (⟨"20250103", []⟩ : DailyFile BinanceRow) =
      .error (.parseError s) :=
  ⟨by decide,
    C6_malformed_timestamp_aborts_day ⟨"20250103", [⟨"garbage", 100⟩]⟩
      ⟨"20250103", []⟩ (by decide)⟩

/-- Counterexample to C4: with equally many files on each venue but
different date sets, the driver's length check passes, both days are
processed, and a BitMEX file is paired with a Binance file of a
different calendar day. -/
theorem C4_counterexample :
    (process_and_save_daily_basis
        [⟨"20250101", []⟩, ⟨"20250103", []⟩]
        [⟨"20250101", []⟩, ⟨"20250102", []⟩]).isOk = true ∧
    ¬ ∀ p ∈ (([⟨"20250101", []⟩, ⟨"20250103", []⟩] : List (DailyFile BitmexRow)).zip
        ([⟨"20250101", []⟩, ⟨"20250102", []⟩] : List (DailyFile BinanceRow))),
      p.1.date = p.2.date := by decide

/-- C4 (amended): Each processed DailyDataset pairs the i-th file of the
sorted futures list with the i-th file of the sorted spot list; when the
two venues' date lists coincide, every processed pair is for the same
calendar day. -/
theorem C4_positional_pairing_same_day (bitmexFiles : List (DailyFile BitmexRow))
    (binanceFiles : List (DailyFile BinanceRow))
    (hdates : bitmexFiles.map DailyFile.date = binanceFiles.map DailyFile.date) :
    ∀ p ∈ bitmexFiles.zip binanceFiles, p.1.date = p.2.date := by
  induction bitmexFiles generalizing binanceFiles with
  | nil => intro p hp; simp at hp
  | cons b bs ih =>
    cases binanceFiles with
    | nil => intro p hp; simp at hp
    | cons c cs =>
      simp only [List.map_cons, List.cons.injEq] at hdates
      intro p hp
      rw [List.zip_cons_cons] at hp
      rcases List.mem_cons.mp hp with h | h
      · rw [h]; exact hdates.1
      · exact ih cs hdates.2 p h

/-- Witness for C4 (amended) on two date-matched file lists. -/
theorem C4_positional_pairing_same_day_witness :
    (([⟨"20250101", []⟩, ⟨"20250102", []⟩] : List (DailyFile BitmexRow)).map DailyFile.date =
      ([⟨"20250101", []⟩, ⟨"20250102", []⟩] : List (DailyFile BinanceRow)).map DailyFile.date) ∧
    ∀ p ∈ (([⟨"20250101", []⟩, ⟨"20250102", []⟩] : List (DailyFile BitmexRow)).zip
        ([⟨"20250101", []⟩, ⟨"20250102", []⟩] : List (DailyFile BinanceRow))),
      p.1.date = p.2.date :=
  ⟨by decide,
    C4_positional_pairing_same_day
      [⟨"20250101", []⟩, ⟨"20250102", []⟩]
      [⟨"20250101", []⟩, ⟨"20250102", []⟩] (by decide)⟩

/-- C8: Persisting N per-day artifacts (filenames `basis_<date>.csv`,
dates strictly ascending as the sorted, distinct input filenames
guarantee) and reloading them through `load_full_basis` yields exactly
the concatenation of the in-memory per-day results in date order. -/
theorem C8_roundtrip_concatenation (results : List (String × List BasisRow))
    (hsorted : results.Pairwise (fun a b => a.1 < b.1)) :
    load_full_basis results = (results.map Prod.snd).flatten := by
  unfold load_full_basis
  rw [List.mergeSort_of_sorted
    (hsorted.imp (fun h => decide_eq_true (le_of_lt h)))]
  cases results with
  | nil => rfl
  | cons a l => simp only [List.map_cons, List.isEmpty_cons, if_neg Bool.false_ne_true]

/-- Witness for C8 on two concrete artifacts. -/
theorem C8_roundtrip_concatenation_witness :
    ([("20250101", [⟨0, 1, 2, 3⟩]), ("20250102", [⟨1, 2, 3, 4⟩])] :
        List (String × List BasisRow)).Pairwise (fun a b => a.1 < b.1) ∧
    load_full_basis [("20250101", [⟨0, 1, 2, 3⟩]), ("20250102", [⟨1, 2, 3, 4⟩])] =
      (([("20250101", [⟨0, 1, 2, 3⟩]), ("20250102", [⟨1, 2, 3, 4⟩])] :
        List (String × List BasisRow)).map Prod.snd).flatten := by
  have hp : ([("20250101", [⟨0, 1, 2, 3⟩]), ("20250102", [⟨1, 2, 3, 4⟩])] :
      List (String × List BasisRow)).Pairwise (fun a b => a.1 < b.1) := by
    refine List.pairwise_cons.mpr ⟨?_, List.pairwise_singleton _ _⟩
    intro b hb
    have hb' := List.mem_singleton.mp hb
    subst hb'
    show ("20250101" : String) < "20250102"
    rw [String.lt_iff_toList_lt]
    decide
  exact ⟨hp, C8_roundtrip_concatenation
    [("20250101", [⟨0, 1, 2, 3⟩]), ("20250102", [⟨1, 2, 3, 4⟩])] hp⟩

/-- C9: The Normalizer keeps exactly the rows whose symbol field equals
the target symbol XBTUSD; non-matching rows are dropped without error,
and the filtered output's row count equals the count of target-symbol
rows in the input. -/
theorem C9_symbol_filter (df : List RawBitmexTrade) :
    (∀ r, r ∈ filterXbtusd df ↔ (r ∈ df ∧ r.symbol = "XBTUSD")) ∧
    (filterXbtusd df).length = df.countP (fun r => r.symbol == "XBTUSD") := by
  constructor
  · intro r
    unfold filterXbtusd
    rw [List.mem_filter]
    simp
  · unfold filterXbtusd
    rw [List.countP_eq_length_filter]

/-- C10: With no per-day basis artifacts, `load_full_basis` returns an
empty table rather than raising. -/
theorem C10_load_empty_store : load_full_basis [] = [] := by
  unfold load_full_basis
  rw [List.mergeSort_nil]
  rfl

end Basis
